import Mathlib

/-!
Verification development for the Azure 2019 trace ingestion pipeline
(`Azure2019.py`).  The Python source is shallowly embedded: machine-level
hashing (`hashlib.md5`) is modelled bit-faithfully over `Nat` with explicit
`% 2^32` reductions, Python `dict`s become insertion-ordered association
lists, the thread pool's `as_completed` nondeterminism becomes quantification
over permutations of the per-shard result list, and `polars` table operations
(`sort`, `unique`, `with_columns`) become the corresponding list operations.
-/

namespace Azure2019

/-! ## MD5 (model of `hashlib.md5(...).hexdigest()`)

All words are `Nat` kept below `2 ^ 32` by explicit reduction. -/

/-- Modulus for 32-bit words. -/
def u32 : Nat := 4294967296

/-- 32-bit left rotation of a word already reduced below `2 ^ 32`. -/
def rotl32 (x s : Nat) : Nat :=
  ((x <<< s) ||| (x >>> (32 - s))) % u32

/-- The 64 MD5 round constants (RFC 1321 `T` table). -/
def md5K : List Nat :=
  [0xd76aa478, 0xe8c7b756, 0x242070db, 0xc1bdceee,
   0xf57c0faf, 0x4787c62a, 0xa8304613, 0xfd469501,
   0x698098d8, 0x8b44f7af, 0xffff5bb1, 0x895cd7be,
   0x6b901122, 0xfd987193, 0xa679438e, 0x49b40821,
   0xf61e2562, 0xc040b340, 0x265e5a51, 0xe9b6c7aa,
   0xd62f105d, 0x02441453, 0xd8a1e681, 0xe7d3fbc8,
   0x21e1cde6, 0xc33707d6, 0xf4d50d87, 0x455a14ed,
   0xa9e3e905, 0xfcefa3f8, 0x676f02d9, 0x8d2a4c8a,
   0xfffa3942, 0x8771f681, 0x6d9d6122, 0xfde5380c,
   0xa4beea44, 0x4bdecfa9, 0xf6bb4b60, 0xbebfbc70,
   0x289b7ec6, 0xeaa127fa, 0xd4ef3085, 0x04881d05,
   0xd9d4d039, 0xe6db99e5, 0x1fa27cf8, 0xc4ac5665,
   0xf4292244, 0x432aff97, 0xab9423a7, 0xfc93a039,
   0x655b59c3, 0x8f0ccc92, 0xffeff47d, 0x85845dd1,
   0x6fa87e4f, 0xfe2ce6e0, 0xa3014314, 0x4e0811a1,
   0xf7537e82, 0xbd3af235, 0x2ad7d2bb, 0xeb86d391]

/-- The 64 MD5 per-round left-rotation amounts. -/
def md5S : List Nat :=
  [7, 12, 17, 22, 7, 12, 17, 22, 7, 12, 17, 22, 7, 12, 17, 22,
   5, 9, 14, 20, 5, 9, 14, 20, 5, 9, 14, 20, 5, 9, 14, 20,
   4, 11, 16, 23, 4, 11, 16, 23, 4, 11, 16, 23, 4, 11, 16, 23,
   6, 10, 15, 21, 6, 10, 15, 21, 6, 10, 15, 21, 6, 10, 15, 21]

/-- MD5 round function, selected by round index `i` (32-bit complement is
`^^^ 0xffffffff`). -/
def md5F (i b c d : Nat) : Nat :=
  if i < 16 then (b &&& c) ||| ((b ^^^ 0xffffffff) &&& d)
  else if i < 32 then (d &&& b) ||| ((d ^^^ 0xffffffff) &&& c)
  else if i < 48 then b ^^^ c ^^^ d
  else c ^^^ (b ||| (d ^^^ 0xffffffff))

/-- Message-word index used in round `i`. -/
def md5Idx (i : Nat) : Nat :=
  if i < 16 then i
  else if i < 32 then (5 * i + 1) % 16
  else if i < 48 then (3 * i + 5) % 16
  else (7 * i) % 16

/-- One of the 64 MD5 rounds, acting on the state `(a, b, c, d)` with the
16-word message block `M`. -/
def md5Step (M : List Nat) (st : Nat × Nat × Nat × Nat) (i : Nat) :
    Nat × Nat × Nat × Nat :=
  let a := st.1; let b := st.2.1; let c := st.2.2.1; let d := st.2.2.2
  let f := (md5F i b c d + a + md5K.getD i 0 + M.getD (md5Idx i) 0) % u32
  let nb := (b + rotl32 f (md5S.getD i 0)) % u32
  (d, nb, b, c)

/-- Process one 512-bit block: run the 64 rounds, then add the block result
into the chaining state (mod `2 ^ 32`). -/
def md5Block (st : Nat × Nat × Nat × Nat) (M : List Nat) :
    Nat × Nat × Nat × Nat :=
  let r := (List.range 64).foldl (md5Step M) st
  ((st.1 + r.1) % u32, (st.2.1 + r.2.1) % u32,
   (st.2.2.1 + r.2.2.1) % u32, (st.2.2.2 + r.2.2.2) % u32)

/-- MD5 padding: append `0x80`, zero bytes up to 56 mod 64, then the
original bit length as 8 little-endian bytes. -/
def md5Pad (msg : List Nat) : List Nat :=
  let len := msg.length
  let k := (56 + 64 - (len + 1) % 64) % 64
  let bitLen := (len * 8) % (2 ^ 64)
  msg ++ 0x80 :: List.replicate k 0 ++
    (List.range 8).map (fun j => (bitLen >>> (8 * j)) % 256)

/-- Little-endian 32-bit word read from a byte list at offset `off`. -/
def leWord (bytes : List Nat) (off : Nat) : Nat :=
  bytes.getD off 0 + 256 * bytes.getD (off + 1) 0 +
    65536 * bytes.getD (off + 2) 0 + 16777216 * bytes.getD (off + 3) 0

/-- Split a padded byte list into 16-word blocks. -/
def md5Blocks (padded : List Nat) : List (List Nat) :=
  (List.range (padded.length / 64)).map
    (fun b => (List.range 16).map (fun j => leWord padded (64 * b + 4 * j)))

/-- MD5 chaining-state initial value. -/
def md5IV : Nat × Nat × Nat × Nat := (0x67452301, 0xefcdab89, 0x98badcfe, 0x10325476)

/-- Final MD5 state after absorbing the whole (padded) message. -/
def md5Final (msg : List Nat) : Nat × Nat × Nat × Nat :=
  (md5Blocks (md5Pad msg)).foldl md5Block md5IV

/-- Serialize a 32-bit word as 4 little-endian bytes. -/
def wordLEBytes (w : Nat) : List Nat :=
  [w % 256, (w >>> 8) % 256, (w >>> 16) % 256, (w >>> 24) % 256]

/-- The 16-byte MD5 digest of a byte list. -/
def md5Bytes (msg : List Nat) : List Nat :=
  wordLEBytes (md5Final msg).1 ++ wordLEBytes (md5Final msg).2.1 ++
    wordLEBytes (md5Final msg).2.2.1 ++ wordLEBytes (md5Final msg).2.2.2

/-- The sixteen lower-case hexadecimal characters. -/
def hexChars : List Char := "0123456789abcdef".data

/-- Hexadecimal character for `n % 16`. -/
def hexDigit (n : Nat) : Char := hexChars.getD (n % 16) '0'

/-- Two-character lower-case hexadecimal rendering of a byte. -/
def byteHex (b : Nat) : List Char := [hexDigit (b / 16), hexDigit b]

/-- Character list of `hashlib.md5(msg).hexdigest()`. -/
def md5HexChars (msg : List Nat) : List Char :=
  (md5Bytes msg).flatMap byteHex

/-- UTF-8 encoding of one character (model of Python `str.encode()` per
character). -/
def utf8Bytes (c : Char) : List Nat :=
  let n := c.toNat
  if n < 0x80 then [n]
  else if n < 0x800 then [0xc0 ||| (n >>> 6), 0x80 ||| (n &&& 0x3f)]
  else if n < 0x10000 then
    [0xe0 ||| (n >>> 12), 0x80 ||| ((n >>> 6) &&& 0x3f), 0x80 ||| (n &&& 0x3f)]
  else
    [0xf0 ||| (n >>> 18), 0x80 ||| ((n >>> 12) &&& 0x3f),
     0x80 ||| ((n >>> 6) &&& 0x3f), 0x80 ||| (n &&& 0x3f)]

/-- UTF-8 byte list of a string (model of Python `str.encode()`). -/
def strBytes (s : String) : List Nat := s.data.flatMap utf8Bytes

/-- `create_hash_id` from `Azure2019.py`: join owner, app and function with
underscores, MD5-hash the UTF-8 bytes, keep the first 10 hex characters. -/
def create_hash_id (owner app func : String) : String :=
  let combined := owner ++ "_" ++ app ++ "_" ++ func
  ⟨(md5HexChars (strBytes combined)).take 10⟩

/-! ## Data model

A shard row carries the three name strings, the trigger label, and the
per-minute counts.  The CSV columns `"1"`..`"1440"` become a partial map
`counts : Nat → Option Nat` (`none` models a column absent from the file,
mirroring the `if minute_str in row_dict` membership test). -/

/-- One row of a shard file. -/
structure Row where
  HashOwner : String
  HashApp : String
  HashFunction : String
  Trigger : String
  counts : Nat → Option Nat

/-- One translation record, as built in `process_file`. -/
structure TranslationRecord where
  HashOwner : String
  HashApp : String
  HashFunction : String
  Trigger : String
  original_uuid : String
  new_hash_uuid : String
deriving DecidableEq

/-- The derived identifier of a row. -/
def rid (row : Row) : String :=
  create_hash_id row.HashOwner row.HashApp row.HashFunction

/-- The translation record emitted for a row. -/
def mkTranslation (row : Row) (func_id : String) : TranslationRecord :=
  { HashOwner := row.HashOwner
    HashApp := row.HashApp
    HashFunction := row.HashFunction
    Trigger := row.Trigger
    original_uuid := row.HashOwner ++ "_" ++ row.HashApp ++ "_" ++ row.HashFunction
    new_hash_uuid := func_id }

/-- The minutes `1, 2, ..., 1440` iterated by `for minute in range(1, 1441)`. -/
def minutesList : List Nat := (List.range 1440).map (· + 1)

/-- The timestamp list one row contributes (`timestamps` in `process_file`):
each present minute with count `c > 0` contributes `c` copies of
`base_timestamp + minute`. -/
def rowTimestamps (base : Nat) (row : Row) : List Nat :=
  minutesList.flatMap fun minute =>
    match row.counts minute with
    | some c => if c > 0 then List.replicate c (base + minute) else []
    | none => []

/-- A Python dict from identifiers to timestamp lists, as an
insertion-ordered association list with unique keys. -/
abbrev SeriesMap : Type := List (String × List Nat)

/-- Python dict assignment `d[k] = v`: replace the value at the first
occurrence of `k` in place, or append a new entry at the end. -/
def dictSet : SeriesMap → String → List Nat → SeriesMap
  | [], k, v => [(k, v)]
  | (k', v') :: rest, k, v =>
    if k' = k then (k, v) :: rest else (k', v') :: dictSet rest k v

/-- Value stored under `k`, or `[]` when absent. -/
def lookupD (g : SeriesMap) (k : String) : List Nat :=
  (List.lookup k g).getD []

/-- The body of the row loop in `process_file`: append the translation
record, then store the row's timestamp list under its identifier when
nonempty (`file_invocations[func_id] = timestamps`). -/
def processRow (file_idx : Nat) (acc : SeriesMap × List TranslationRecord)
    (row : Row) : SeriesMap × List TranslationRecord :=
  let func_id := rid row
  let translations := acc.2 ++ [mkTranslation row func_id]
  let timestamps := rowTimestamps (file_idx * 24 * 60) row
  if timestamps = [] then (acc.1, translations)
  else (dictSet acc.1 func_id timestamps, translations)

/-- Input of one `process_file` call: either the decoded rows, or a failure
(unreadable file / malformed row), which the source's `try`/`except`
converts into the empty result. -/
inductive ShardInput where
  | ok (rows : List Row)
  | failed (msg : String)

/-- `process_file` from `Azure2019.py`: decode one shard into its series
map and translation list; on any decoding error return `({}, [])`. -/
def process_file (shard : ShardInput) (file_idx : Nat) :
    SeriesMap × List TranslationRecord :=
  match shard with
  | .ok rows => rows.foldl (processRow file_idx) ([], [])
  | .failed _ => ([], [])

/-! ## Parallel merge (`process_invocation_data`, lines 114-133)

`as_completed` yields the per-shard results in an arbitrary order; the
theorems below quantify over permutations of the canonical result list. -/

/-- Merge one `(func_id, timestamps)` pair into the global accumulator:
extend the existing list in place, or insert the new key at the end. -/
def mergeSeries (global : SeriesMap) (entry : String × List Nat) : SeriesMap :=
  match List.lookup entry.1 global with
  | some existing => dictSet global entry.1 (existing ++ entry.2)
  | none => global ++ [entry]

/-- Merge one completed shard result into the global accumulators. -/
def mergeResult (acc : SeriesMap × List TranslationRecord)
    (res : SeriesMap × List TranslationRecord) :
    SeriesMap × List TranslationRecord :=
  (res.1.foldl mergeSeries acc.1, acc.2 ++ res.2)

/-- The per-shard results in shard-index order: shard `i` of the sorted
file list is processed with `file_idx = i`. -/
def shardResults (shards : List ShardInput) :
    List (SeriesMap × List TranslationRecord) :=
  shards.enum.map fun p => process_file p.2 p.1

/-- Fold the completed shard results (in completion order) into the global
accumulators, starting from empty. -/
def accumulate (completed : List (SeriesMap × List TranslationRecord)) :
    SeriesMap × List TranslationRecord :=
  completed.foldl mergeResult ([], [])

/-! ## Normalization and final assembly -/

/-- Python `min` over a nonempty list (`[]` is mapped to `0`; the source
never calls `min` on an empty list thanks to the emptiness guard). -/
def list_min : List Nat → Nat
  | [] => 0
  | t :: ts => ts.foldl min t

/-- `normalize_time_list` from `Azure2019.py`.  Timestamps are integer
minute offsets, so Python's `round(t - min_val, 3)` is exact and equals
`t - min_val`. -/
def normalize_time_list (time_list : List Nat) : List Nat :=
  match time_list with
  | [] => []
  | t :: ts =>
    let min_val := list_min (t :: ts)
    (t :: ts).map fun x => x - min_val

/-- One row of the final invocation table. -/
structure InvocationRow where
  uuid : String
  time : List Nat
  call_count : Nat
deriving DecidableEq

/-- Rows of the invocation table before sorting, one per key of the global
map in insertion order; `time` is normalized, `call_count` is the length
of the accumulated series. -/
def buildInvocationRows (g : SeriesMap) : List InvocationRow :=
  g.map fun p =>
    { uuid := p.1, time := normalize_time_list p.2, call_count := p.2.length }

/-- The descending `call_count` comparison used by
`sort('call_count', descending=True)`. -/
def callCountDesc (a b : InvocationRow) : Prop := b.call_count ≤ a.call_count

instance : DecidableRel callCountDesc := fun a b => Nat.decLe b.call_count a.call_count

/-- The final invocation table built from the global series map:
normalize, attach call counts, sort descending by `call_count` (polars
guarantees sortedness only, so any sorting algorithm is a faithful model;
a structural insertion sort is used). -/
def df_invocations (g : SeriesMap) : List InvocationRow :=
  (buildInvocationRows g).insertionSort callCountDesc

/-- The final translation table: `pl.DataFrame(translation_data).unique()`,
i.e. deduplication by full-tuple equality. -/
def translation_df (records : List TranslationRecord) : List TranslationRecord :=
  records.dedup

/-- The tail of `process_invocation_data` after the merge loop, applied to
a completed-result list in some completion order. -/
def pipelineRun (completed : List (SeriesMap × List TranslationRecord)) :
    List InvocationRow × List TranslationRecord :=
  let acc := accumulate completed
  (df_invocations acc.1, translation_df acc.2)

/-- `process_invocation_data` from `Azure2019.py` at the canonical
(shard-index) completion order. -/
def process_invocation_data (shards : List ShardInput) :
    List InvocationRow × List TranslationRecord :=
  pipelineRun (shardResults shards)

/-- Total of the minute-count fields of one row. -/
def rowSum (row : Row) : Nat :=
  (minutesList.map (fun m => (row.counts m).getD 0)).sum

/-- Sum, over all rows of one shard whose derived identifier is `k`, of the
rows' minute-count totals; a failed shard contributes zero. -/
def shardTotal (k : String) (s : ShardInput) : Nat :=
  match s with
  | .ok rows => ((rows.filter fun r => rid r == k).map rowSum).sum
  | .failed _ => 0

/-- Sum, over all successfully decoded shards and over all rows whose
derived identifier is `k`, of the rows' minute-count totals. -/
def totalCount (shards : List ShardInput) (k : String) : Nat :=
  (shards.map (shardTotal k)).sum

/-- Timestamp lists stored under `k` across a flat entry list, concatenated
in order: the content the merge loop accumulates for identity `k`. -/
def entriesFor (k : String) (entries : List (String × List Nat)) : List Nat :=
  (entries.filter fun e => e.1 == k).flatMap Prod.snd

/-! ## Concrete fixtures for witnesses and counterexamples -/

/-- A minute-count column map holding `c` at minute `m0` and absent
elsewhere. -/
def cntAt (m0 c : Nat) : Nat → Option Nat := fun m => if m = m0 then some c else none

/-- Scenario-A row for shard 0: minute 1 has 2 invocations. -/
def rowA : Row := ⟨"o1", "a1", "f1", "http", cntAt 1 2⟩

/-- Scenario-A row for shard 1: minute 1 has 1 invocation. -/
def rowB : Row := ⟨"o1", "a1", "f1", "http", cntAt 1 1⟩

/-- First of two same-identity rows in one shard: minute 1 has 2 invocations. -/
def rowDup1 : Row := ⟨"o2", "a2", "f2", "http", cntAt 1 2⟩

/-- Second of two same-identity rows in one shard: minute 2 has 3 invocations. -/
def rowDup2 : Row := ⟨"o2", "a2", "f2", "http", cntAt 2 3⟩

/-- A row with every minute column absent (all-zero counts). -/
def rowZero : Row := ⟨"o3", "a3", "f3", "http", fun _ => none⟩

/-! ## Lemmas: association-list dictionary operations -/

theorem lookup_dictSet_self (g : SeriesMap) (k : String) (v : List Nat) :
    List.lookup k (dictSet g k v) = some v := by
  induction g with
  | nil => simp [dictSet]
  | cons e rest ih =>
    obtain ⟨k', v'⟩ := e
    by_cases h : k' = k
    · subst h
      simp [dictSet]
    · have hb : (k == k') = false := beq_eq_false_iff_ne.mpr (fun hh => h hh.symm)
      simp [dictSet, h, List.lookup, hb, ih]

theorem lookup_dictSet_ne (g : SeriesMap) (k k' : String) (v : List Nat)
    (h : k' ≠ k) : List.lookup k' (dictSet g k v) = List.lookup k' g := by
  have hb : (k' == k) = false := beq_eq_false_iff_ne.mpr h
  induction g with
  | nil => simp [dictSet, List.lookup, hb]
  | cons e rest ih =>
    obtain ⟨k0, v0⟩ := e
    by_cases h0 : k0 = k
    · subst h0
      simp [dictSet, List.lookup, hb]
    · simp [dictSet, h0, List.lookup, ih]

theorem lookup_append_or (g1 g2 : SeriesMap) (k : String) :
    List.lookup k (g1 ++ g2) = (List.lookup k g1).or (List.lookup k g2) := by
  induction g1 with
  | nil => simp
  | cons e rest ih =>
    obtain ⟨k0, v0⟩ := e
    by_cases h : k = k0
    · subst h
      simp [List.lookup]
    · have hb : (k == k0) = false := beq_eq_false_iff_ne.mpr h
      simp [List.lookup, hb, ih]

theorem lookupD_mergeSeries (g : SeriesMap) (e : String × List Nat) (k : String) :
    lookupD (mergeSeries g e) k =
      if e.1 = k then lookupD g k ++ e.2 else lookupD g k := by
  obtain ⟨k0, ts⟩ := e
  unfold mergeSeries lookupD
  cases hg : List.lookup k0 g with
  | some ex =>
    by_cases hk : k0 = k
    · subst hk
      rw [lookup_dictSet_self]
      simp [hg]
    · rw [lookup_dictSet_ne _ _ _ _ (fun h => hk h.symm)]
      simp [hk]
  | none =>
    rw [lookup_append_or]
    by_cases hk : k0 = k
    · subst hk
      rw [hg]
      simp [List.lookup]
    · have hb : (k == k0) = false := beq_eq_false_iff_ne.mpr (fun hh => hk hh.symm)
      cases h2 : List.lookup k g with
      | some v => simp [hk, List.lookup, hb]
      | none => simp [hk, List.lookup, hb]

theorem lookupD_foldl_mergeSeries (entries : List (String × List Nat))
    (g : SeriesMap) (k : String) :
    lookupD (entries.foldl mergeSeries g) k = lookupD g k ++ entriesFor k entries := by
  induction entries generalizing g with
  | nil => simp [entriesFor]
  | cons e rest ih =>
    rw [List.foldl_cons, ih]
    unfold entriesFor
    rw [List.filter_cons]
    by_cases h : e.1 = k
    · simp [h, lookupD_mergeSeries, entriesFor, List.append_assoc]
    · simp [h, lookupD_mergeSeries, entriesFor]

theorem accumulate_fst (completed : List (SeriesMap × List TranslationRecord))
    (g0 : SeriesMap × List TranslationRecord) :
    (completed.foldl mergeResult g0).1 =
      (completed.map Prod.fst).foldl (fun g p => p.foldl mergeSeries g) g0.1 := by
  induction completed generalizing g0 with
  | nil => rfl
  | cons c rest ih => simp [List.foldl_cons, ih, mergeResult]

theorem lookupD_accumulate (completed : List (SeriesMap × List TranslationRecord))
    (k : String) :
    lookupD (accumulate completed).1 k =
      entriesFor k (completed.map Prod.fst).flatten := by
  unfold accumulate
  rw [accumulate_fst, ← List.foldl_flatten, lookupD_foldl_mergeSeries]
  simp [lookupD]

theorem entriesFor_append (k : String) (l1 l2 : List (String × List Nat)) :
    entriesFor k (l1 ++ l2) = entriesFor k l1 ++ entriesFor k l2 := by
  simp [entriesFor, List.filter_append]

theorem entriesFor_flatten (k : String) (L : List (List (String × List Nat))) :
    entriesFor k L.flatten = (L.map (entriesFor k)).flatten := by
  induction L with
  | nil => simp [entriesFor]
  | cons p rest ih => simp [entriesFor_append, ih]

theorem entriesFor_coe_multiset (k : String) (entries : List (String × List Nat)) :
    (↑(entriesFor k entries) : Multiset Nat) =
      (entries.map fun e => if e.1 == k then (↑e.2 : Multiset Nat) else 0).sum := by
  induction entries with
  | nil => simp [entriesFor]
  | cons e rest ih =>
    unfold entriesFor
    rw [List.filter_cons]
    cases hb : (e.1 == k) with
    | true =>
      simp only [List.map_cons, List.sum_cons, hb, if_true, List.flatMap_cons]
      rw [← Multiset.coe_add, ← ih]
      rfl
    | false =>
      simp only [List.map_cons, List.sum_cons, hb, if_false, Bool.false_eq_true,
        zero_add]
      rw [← ih]
      rfl

theorem lookupD_accumulate_multiset
    (completed : List (SeriesMap × List TranslationRecord)) (k : String) :
    (↑(lookupD (accumulate completed).1 k) : Multiset Nat) =
      (completed.map fun res =>
        (res.1.map fun e => if e.1 == k then (↑e.2 : Multiset Nat) else 0).sum).sum := by
  rw [lookupD_accumulate, entriesFor_coe_multiset, List.map_flatten,
    List.sum_flatten, List.map_map, List.map_map]
  rfl

/-! ## Lemmas: shard decoding -/

theorem processRow_snd (idx : Nat) (acc : SeriesMap × List TranslationRecord)
    (row : Row) :
    (processRow idx acc row).2 = acc.2 ++ [mkTranslation row (rid row)] := by
  unfold processRow
  by_cases h : rowTimestamps (idx * 24 * 60) row = [] <;> simp [h]

theorem foldl_processRow_snd (rows : List Row) (idx : Nat)
    (acc : SeriesMap × List TranslationRecord) :
    (rows.foldl (processRow idx) acc).2 =
      acc.2 ++ rows.map (fun r => mkTranslation r (rid r)) := by
  induction rows generalizing acc with
  | nil => simp
  | cons r rest ih =>
    rw [List.foldl_cons, ih, processRow_snd]
    simp

theorem process_file_translations (rows : List Row) (idx : Nat) :
    (process_file (.ok rows) idx).2 = rows.map (fun r => mkTranslation r (rid r)) := by
  unfold process_file
  rw [foldl_processRow_snd]
  simp

theorem processRow_fst (idx : Nat) (acc : SeriesMap × List TranslationRecord)
    (row : Row) :
    (processRow idx acc row).1 =
      if rowTimestamps (idx * 24 * 60) row = [] then acc.1
      else dictSet acc.1 (rid row) (rowTimestamps (idx * 24 * 60) row) := by
  unfold processRow
  by_cases h : rowTimestamps (idx * 24 * 60) row = [] <;> simp [h]

theorem processRow_fst_lookup_ne (idx : Nat) (acc : SeriesMap × List TranslationRecord)
    (row : Row) (k : String) (h : rid row ≠ k) :
    List.lookup k (processRow idx acc row).1 = List.lookup k acc.1 := by
  unfold processRow
  by_cases hts : rowTimestamps (idx * 24 * 60) row = []
  · simp [hts]
  · simp only [hts, if_false]
    exact lookup_dictSet_ne _ _ _ _ (fun hh => h hh.symm)

theorem foldl_processRow_lookup_same (rows : List Row) (idx : Nat)
    (acc : SeriesMap × List TranslationRecord) (k : String)
    (h : ∀ r ∈ rows, rid r ≠ k) :
    List.lookup k ((rows.foldl (processRow idx) acc).1) = List.lookup k acc.1 := by
  induction rows generalizing acc with
  | nil => rfl
  | cons r rest ih =>
    rw [List.foldl_cons, ih _ (fun r' hr' => h r' (List.mem_cons_of_mem _ hr')),
      processRow_fst_lookup_ne _ _ _ _ (h r (List.mem_cons_self _ _))]

theorem foldl_processRow_lookupD (rows : List Row) (idx : Nat)
    (acc : SeriesMap × List TranslationRecord) (k : String)
    (hnone : List.lookup k acc.1 = none)
    (hcount : (rows.filter fun r => rid r == k).length ≤ 1) :
    lookupD ((rows.foldl (processRow idx) acc).1) k =
      (rows.filter fun r => rid r == k).flatMap (rowTimestamps (idx * 24 * 60)) := by
  induction rows generalizing acc with
  | nil => simp [lookupD, hnone]
  | cons r rest ih =>
    rw [List.foldl_cons]
    rw [List.filter_cons] at hcount ⊢
    cases hb : (rid r == k) with
    | false =>
      have hne : rid r ≠ k := beq_eq_false_iff_ne.mp hb
      simp only [hb, Bool.false_eq_true, if_false] at hcount ⊢
      exact ih _ ((processRow_fst_lookup_ne idx acc r k hne).trans hnone) hcount
    | true =>
      have heq : rid r = k := beq_iff_eq.mp hb
      simp only [hb, if_true, List.length_cons] at hcount ⊢
      have hrest0 : (rest.filter fun r' => rid r' == k) = [] := by
        have : (rest.filter fun r' => rid r' == k).length = 0 := by omega
        exact List.eq_nil_of_length_eq_zero this
      have hrest : ∀ r' ∈ rest, rid r' ≠ k := by
        intro r' hr'
        have := List.filter_eq_nil_iff.mp hrest0 r' hr'
        simpa using this
      rw [hrest0]
      unfold lookupD
      rw [foldl_processRow_lookup_same _ _ _ _ hrest, processRow_fst]
      by_cases hts : rowTimestamps (idx * 24 * 60) r = []
      · simp [hts, hnone]
      · simp only [hts, if_false, heq]
        rw [lookup_dictSet_self]
        simp

theorem process_file_lookupD (rows : List Row) (idx : Nat) (k : String)
    (hcount : (rows.filter fun r => rid r == k).length ≤ 1) :
    lookupD (process_file (.ok rows) idx).1 k =
      (rows.filter fun r => rid r == k).flatMap (rowTimestamps (idx * 24 * 60)) := by
  unfold process_file
  exact foldl_processRow_lookupD rows idx ([], []) k rfl hcount

/-! ## Lemmas: timestamp expansion -/

theorem minutesList_nodup : minutesList.Nodup := by
  unfold minutesList
  refine List.Nodup.map ?_ (List.nodup_range 1440)
  intro a b h
  dsimp only at h
  omega

theorem mem_minutesList (m : Nat) : m ∈ minutesList ↔ 1 ≤ m ∧ m ≤ 1440 := by
  unfold minutesList
  simp only [List.mem_map, List.mem_range]
  constructor
  · rintro ⟨a, ha, rfl⟩
    omega
  · intro h
    exact ⟨m - 1, by omega, by omega⟩

theorem rowTimestamps_length (base : Nat) (row : Row) :
    (rowTimestamps base row).length = rowSum row := by
  unfold rowTimestamps rowSum
  rw [List.length_flatMap]
  have hpt : ∀ m ∈ minutesList,
      (List.length ∘ fun minute =>
        match row.counts minute with
        | some c => if c > 0 then List.replicate c (base + minute) else []
        | none => []) m = (fun m' => (row.counts m').getD 0) m := by
    intro m _
    cases hc : row.counts m with
    | none => simp [Function.comp, hc]
    | some c =>
      by_cases h : c > 0
      · simp [Function.comp, hc, h]
      · have hc0 : c = 0 := by omega
        simp [Function.comp, hc, h, hc0]
  rw [List.map_congr_left hpt]

theorem mem_rowTimestamps (base : Nat) (row : Row) (t : Nat)
    (h : t ∈ rowTimestamps base row) : ∃ m ∈ minutesList, t = base + m := by
  unfold rowTimestamps at h
  rw [List.mem_flatMap] at h
  obtain ⟨m, hm, hchunk⟩ := h
  refine ⟨m, hm, ?_⟩
  cases hc : row.counts m with
  | none => simp only [hc] at hchunk; cases hchunk
  | some c =>
    simp only [hc] at hchunk
    by_cases hpos : c > 0
    · rw [if_pos hpos] at hchunk
      exact List.eq_of_mem_replicate hchunk
    · rw [if_neg hpos] at hchunk
      cases hchunk

theorem sum_map_ite_eq (l : List Nat) (m v : Nat) (hn : l.Nodup) (hm : m ∈ l) :
    (l.map fun m' => if m' = m then v else 0).sum = v := by
  induction l with
  | nil => cases hm
  | cons a rest ih =>
    rw [List.nodup_cons] at hn
    rcases List.mem_cons.mp hm with heq | hmem
    · subst heq
      have hrest : (rest.map fun m' => if m' = m then v else 0).sum = 0 := by
        apply List.sum_eq_zero
        intro x hx
        obtain ⟨m', hm', rfl⟩ := List.mem_map.mp hx
        have hne : m' ≠ m := by
          intro hh
          subst hh
          exact hn.1 hm'
        rw [if_neg hne]
      simp [hrest]
    · have hne : a ≠ m := by
        intro hh
        subst hh
        exact hn.1 hmem
      simp only [List.map_cons, List.sum_cons, if_neg hne, Nat.zero_add]
      exact ih hn.2 hmem

theorem count_rowTimestamps (base : Nat) (row : Row) (m c : Nat)
    (hm : m ∈ minutesList) (hc : row.counts m = some c) (hpos : 0 < c) :
    (rowTimestamps base row).count (base + m) = c := by
  unfold rowTimestamps
  rw [List.count_flatMap]
  have hpt : ∀ m' ∈ minutesList,
      (List.count (base + m) ∘ fun minute =>
        match row.counts minute with
        | some c' => if c' > 0 then List.replicate c' (base + minute) else []
        | none => []) m' = if m' = m then c else 0 := by
    intro m' _
    by_cases hmm : m' = m
    · subst hmm
      simp only [Function.comp, hc, if_pos hpos, if_pos rfl]
      simp [List.count_replicate]
    · have hne : (base + m' == base + m) = false := by
        refine beq_eq_false_iff_ne.mpr (fun hh => hmm ?_)
        omega
      simp only [Function.comp, if_neg hmm]
      cases hcc : row.counts m' with
      | none => simp
      | some c' =>
        by_cases hp : c' > 0
        · simp [hp, List.count_replicate, hne]
        · simp [hp]
  rw [List.map_congr_left hpt]
  exact sum_map_ite_eq _ _ _ minutesList_nodup hm

/-! ## Lemmas: key sets and key uniqueness -/

theorem mem_keys_dictSet (g : SeriesMap) (k : String) (v : List Nat) (k' : String)
    (h : k' ∈ (dictSet g k v).map Prod.fst) : k' ∈ g.map Prod.fst ∨ k' = k := by
  induction g with
  | nil =>
    simp only [dictSet, List.map_cons, List.map_nil, List.mem_singleton] at h
    exact Or.inr h
  | cons e rest ih =>
    obtain ⟨k0, v0⟩ := e
    by_cases h0 : k0 = k
    · subst h0
      rw [dictSet, if_pos rfl] at h
      simp only [List.map_cons, List.mem_cons] at h
      rcases h with h | h
      · exact Or.inr h
      · exact Or.inl (List.mem_cons_of_mem _ h)
    · rw [dictSet, if_neg h0] at h
      simp only [List.map_cons, List.mem_cons] at h
      rcases h with h | h
      · exact Or.inl (List.mem_cons.mpr (Or.inl h))
      · rcases ih h with h2 | h2
        · exact Or.inl (List.mem_cons_of_mem _ h2)
        · exact Or.inr h2

theorem lookup_none_not_mem_keys (g : SeriesMap) (k : String)
    (h : List.lookup k g = none) : k ∉ g.map Prod.fst := by
  induction g with
  | nil => simp
  | cons e rest ih =>
    obtain ⟨k0, v0⟩ := e
    intro hmem
    by_cases h0 : k = k0
    · subst h0
      simp [List.lookup] at h
    · have hb : (k == k0) = false := beq_eq_false_iff_ne.mpr h0
      rw [List.lookup, hb] at h
      simp only [List.map_cons] at hmem
      rcases List.mem_cons.mp hmem with h2 | h2
      · exact h0 h2
      · exact ih h h2

theorem nodupKeys_dictSet (g : SeriesMap) (k : String) (v : List Nat)
    (h : (g.map Prod.fst).Nodup) : ((dictSet g k v).map Prod.fst).Nodup := by
  induction g with
  | nil => simp [dictSet]
  | cons e rest ih =>
    obtain ⟨k0, v0⟩ := e
    simp only [List.map_cons, List.nodup_cons] at h
    by_cases h0 : k0 = k
    · subst h0
      rw [dictSet, if_pos rfl]
      simp only [List.map_cons, List.nodup_cons]
      exact h
    · rw [dictSet, if_neg h0]
      simp only [List.map_cons, List.nodup_cons]
      refine ⟨?_, ih h.2⟩
      intro hmem
      rcases mem_keys_dictSet rest k v k0 hmem with h2 | h2
      · exact h.1 h2
      · exact h0 h2

theorem nodupKeys_mergeSeries (g : SeriesMap) (e : String × List Nat)
    (h : (g.map Prod.fst).Nodup) : ((mergeSeries g e).map Prod.fst).Nodup := by
  unfold mergeSeries
  cases hg : List.lookup e.1 g with
  | some ex => exact nodupKeys_dictSet g e.1 _ h
  | none =>
    rw [List.map_append]
    rw [List.nodup_append]
    refine ⟨h, List.nodup_singleton _, ?_⟩
    intro x hx hx2
    simp at hx2
    subst hx2
    exact lookup_none_not_mem_keys g e.1 hg hx

theorem nodupKeys_foldl_mergeSeries (entries : List (String × List Nat))
    (g : SeriesMap) (h : (g.map Prod.fst).Nodup) :
    (((entries.foldl mergeSeries g)).map Prod.fst).Nodup := by
  induction entries generalizing g with
  | nil => exact h
  | cons e rest ih => exact ih _ (nodupKeys_mergeSeries g e h)

theorem nodupKeys_accumulate (completed : List (SeriesMap × List TranslationRecord)) :
    ((accumulate completed).1.map Prod.fst).Nodup := by
  unfold accumulate
  rw [accumulate_fst, ← List.foldl_flatten]
  exact nodupKeys_foldl_mergeSeries _ _ (by simp)

theorem lookup_of_mem_nodupKeys (g : SeriesMap) (k : String) (v : List Nat)
    (hnd : (g.map Prod.fst).Nodup) (hmem : (k, v) ∈ g) :
    List.lookup k g = some v := by
  induction g with
  | nil => cases hmem
  | cons e rest ih =>
    obtain ⟨k0, v0⟩ := e
    simp only [List.map_cons, List.nodup_cons] at hnd
    rcases List.mem_cons.mp hmem with heq | hmem2
    · rw [Prod.mk.injEq] at heq
      obtain ⟨h1, h2⟩ := heq
      subst h1
      subst h2
      simp [List.lookup]
    · have hk : k ≠ k0 := by
        intro hh
        subst hh
        exact hnd.1 (by simpa using List.mem_map_of_mem Prod.fst hmem2)
      have hb : (k == k0) = false := beq_eq_false_iff_ne.mpr hk
      simp only [List.lookup, hb]
      exact ih hnd.2 hmem2

theorem entriesFor_eq_nil_of_not_mem (k : String) (g : SeriesMap)
    (h : k ∉ g.map Prod.fst) : entriesFor k g = [] := by
  unfold entriesFor
  have : g.filter (fun e => e.1 == k) = [] := by
    rw [List.filter_eq_nil_iff]
    intro e he hb
    have : e.1 = k := by simpa using hb
    exact h (this ▸ List.mem_map_of_mem Prod.fst he)
  rw [this]
  rfl

theorem entriesFor_eq_lookupD (k : String) (g : SeriesMap)
    (hnd : (g.map Prod.fst).Nodup) : entriesFor k g = lookupD g k := by
  induction g with
  | nil => rfl
  | cons e rest ih =>
    obtain ⟨k0, v0⟩ := e
    simp only [List.map_cons, List.nodup_cons] at hnd
    unfold entriesFor lookupD
    rw [List.filter_cons]
    cases hb : (k0 == k) with
    | true =>
      have heq : k0 = k := beq_iff_eq.mp hb
      subst heq
      simp only [List.lookup, beq_self_eq_true]
      have h0 : entriesFor k0 rest = [] := entriesFor_eq_nil_of_not_mem _ _ hnd.1
      unfold entriesFor at h0
      simp [h0]
    | false =>
      have hne : k ≠ k0 := fun hh => by simp [hh] at hb
      have hb2 : (k == k0) = false := beq_eq_false_iff_ne.mpr hne
      simp only [List.lookup, hb2, Bool.false_eq_true, if_false]
      exact ih hnd.2

theorem process_file_nodupKeys (s : ShardInput) (idx : Nat) :
    ((process_file s idx).1.map Prod.fst).Nodup := by
  cases s with
  | failed m => simp [process_file]
  | ok rows =>
    unfold process_file
    suffices h : ∀ acc : SeriesMap × List TranslationRecord,
        (acc.1.map Prod.fst).Nodup →
        ((rows.foldl (processRow idx) acc).1.map Prod.fst).Nodup by
      exact h ([], []) (by simp)
    induction rows with
    | nil => intro acc h; exact h
    | cons r rest ih =>
      intro acc h
      rw [List.foldl_cons]
      apply ih
      rw [processRow_fst]
      by_cases hts : rowTimestamps (idx * 24 * 60) r = []
      · simpa [hts] using h
      · simp only [hts, if_false]
        exact nodupKeys_dictSet _ _ _ h

theorem keys_foldl_processRow_zero (rows : List Row) (idx : Nat)
    (acc : SeriesMap × List TranslationRecord) (k : String)
    (hacc : k ∉ acc.1.map Prod.fst)
    (hzero : ∀ r ∈ rows, rid r = k → rowTimestamps (idx * 24 * 60) r = []) :
    k ∉ ((rows.foldl (processRow idx) acc).1.map Prod.fst) := by
  induction rows generalizing acc with
  | nil => exact hacc
  | cons r rest ih =>
    rw [List.foldl_cons]
    refine ih _ ?_ (fun r' hr' => hzero r' (List.mem_cons_of_mem _ hr'))
    rw [processRow_fst]
    by_cases hts : rowTimestamps (idx * 24 * 60) r = []
    · simpa [hts] using hacc
    · simp only [hts, if_false]
      intro hmem
      rcases mem_keys_dictSet _ _ _ _ hmem with h2 | h2
      · exact hacc h2
      · exact hts (hzero r (List.mem_cons_self _ _) h2.symm)

theorem mem_keys_foldl_mergeSeries (entries : List (String × List Nat))
    (g : SeriesMap) (k : String)
    (h : k ∈ ((entries.foldl mergeSeries g).map Prod.fst)) :
    k ∈ g.map Prod.fst ∨ ∃ e ∈ entries, e.1 = k := by
  induction entries generalizing g with
  | nil => exact Or.inl h
  | cons e rest ih =>
    rw [List.foldl_cons] at h
    rcases ih _ h with hin | ⟨e', he', hk⟩
    · unfold mergeSeries at hin
      cases hg : List.lookup e.1 g with
      | some ex =>
        rw [hg] at hin
        rcases mem_keys_dictSet _ _ _ _ hin with h2 | h2
        · exact Or.inl h2
        · exact Or.inr ⟨e, List.mem_cons_self _ _, h2.symm⟩
      | none =>
        rw [hg] at hin
        rw [List.map_append] at hin
        rcases List.mem_append.mp hin with h2 | h2
        · exact Or.inl h2
        · simp at h2
          exact Or.inr ⟨e, List.mem_cons_self _ _, h2.symm⟩
    · exact Or.inr ⟨e', List.mem_cons_of_mem _ he', hk⟩

theorem snd_mem_of_mem_enumFrom {α : Type} :
    ∀ (l : List α) (n i : Nat) (x : α), (i, x) ∈ l.enumFrom n → x ∈ l := by
  intro l
  induction l with
  | nil => intro n i x h; cases h
  | cons a t ih =>
    intro n i x h
    simp only [List.enumFrom] at h
    rcases List.mem_cons.mp h with heq | hmem
    · rw [Prod.mk.injEq] at heq
      exact List.mem_cons.mpr (Or.inl heq.2)
    · exact List.mem_cons_of_mem _ (ih (n + 1) i x hmem)

/-! ## Lemmas: conservation of count -/

theorem filter_rid_length_le_one (rows : List Row) (k : String)
    (h : (rows.map rid).Nodup) :
    (rows.filter fun r => rid r == k).length ≤ 1 := by
  induction rows with
  | nil => simp
  | cons r rest ih =>
    simp only [List.map_cons, List.nodup_cons] at h
    rw [List.filter_cons]
    cases hb : (rid r == k) with
    | false => exact ih h.2
    | true =>
      have heq : rid r = k := beq_iff_eq.mp hb
      have hnil : (rest.filter fun r' => rid r' == k) = [] := by
        rw [List.filter_eq_nil_iff]
        intro r' hr' hbb
        have : rid r' = k := by simpa using hbb
        exact h.1 (by rw [heq, ← this]; exact List.mem_map_of_mem rid hr')
      simp [hnil]

theorem filter_rid_eq_single (rows : List Row) (r : Row)
    (h : (rows.map rid).Nodup) (hr : r ∈ rows) :
    (rows.filter fun x => rid x == rid r) = [r] := by
  induction rows with
  | nil => cases hr
  | cons a rest ih =>
    simp only [List.map_cons, List.nodup_cons] at h
    rw [List.filter_cons]
    rcases List.mem_cons.mp hr with heq | hmem
    · subst heq
      rw [if_pos (by simp)]
      have hnil : (rest.filter fun x => rid x == rid r) = [] := by
        rw [List.filter_eq_nil_iff]
        intro r' hr' hbb
        have : rid r' = rid r := by simpa using hbb
        exact h.1 (by rw [← this]; exact List.mem_map_of_mem rid hr')
      rw [hnil]
    · have hne : (rid a == rid r) = false := by
        refine beq_eq_false_iff_ne.mpr (fun hh => ?_)
        exact h.1 (by rw [hh]; exact List.mem_map_of_mem rid hmem)
      rw [hne]
      simp only [Bool.false_eq_true, if_false]
      exact ih h.2 hmem

theorem process_file_lookupD_length (s : ShardInput) (idx : Nat) (k : String)
    (huniq : ∀ rows, s = ShardInput.ok rows → (rows.map rid).Nodup) :
    (lookupD (process_file s idx).1 k).length = shardTotal k s := by
  cases s with
  | failed m => simp [process_file, lookupD, shardTotal]
  | ok rows =>
    rw [process_file_lookupD rows idx k (filter_rid_length_le_one rows k (huniq rows rfl))]
    unfold shardTotal
    rw [List.length_flatMap]
    have hpt : ∀ r ∈ rows.filter (fun r => rid r == k),
        (List.length ∘ rowTimestamps (idx * 24 * 60)) r = rowSum r := by
      intro r _
      simp only [Function.comp]
      exact rowTimestamps_length (idx * 24 * 60) r
    rw [List.map_congr_left hpt]

theorem conservation_enumFrom (shards : List ShardInput) (k : String) (n : Nat)
    (huniq : ∀ rows, ShardInput.ok rows ∈ shards → (rows.map rid).Nodup) :
    (((shards.enumFrom n).map fun p => process_file p.2 p.1).map
        fun res => (lookupD res.1 k).length).sum = totalCount shards k := by
  induction shards generalizing n with
  | nil => rfl
  | cons s rest ih =>
    simp only [List.enumFrom, List.map_cons, List.sum_cons]
    unfold totalCount
    simp only [List.map_cons, List.sum_cons]
    rw [process_file_lookupD_length s n k
      (fun rows hrr => huniq rows (by rw [← hrr]; exact List.mem_cons_self _ _))]
    have htail := ih (n + 1) (fun rows hm => huniq rows (List.mem_cons_of_mem _ hm))
    unfold totalCount at htail
    rw [htail]

theorem lookupD_global_length (shards : List ShardInput) (k : String)
    (huniq : ∀ rows, ShardInput.ok rows ∈ shards → (rows.map rid).Nodup) :
    (lookupD (accumulate (shardResults shards)).1 k).length = totalCount shards k := by
  rw [lookupD_accumulate, entriesFor_flatten, List.length_flatten, List.map_map,
    List.map_map]
  have hpt : ∀ res ∈ shardResults shards,
      ((List.length ∘ entriesFor k) ∘ Prod.fst) res =
        (fun res' => (lookupD res'.1 k).length) res := by
    intro res hres
    obtain ⟨p, hp, rfl⟩ := List.mem_map.mp hres
    have hnd := process_file_nodupKeys p.2 p.1
    simp only [Function.comp]
    rw [entriesFor_eq_lookupD k _ hnd]
  rw [List.map_congr_left hpt]
  exact conservation_enumFrom shards k 0 huniq

theorem mem_df_invocations (g : SeriesMap) (row : InvocationRow)
    (h : row ∈ df_invocations g) :
    ∃ p ∈ g, row =
      { uuid := p.1, time := normalize_time_list p.2, call_count := p.2.length } := by
  unfold df_invocations at h
  have h2 := (List.perm_insertionSort callCountDesc (buildInvocationRows g)).mem_iff.mp h
  unfold buildInvocationRows at h2
  obtain ⟨p, hp, heq⟩ := List.mem_map.mp h2
  exact ⟨p, hp, heq.symm⟩

/-! ## Lemmas: normalization -/

theorem min_sub_foldl (ts : List Nat) (t m : Nat) :
    ((ts.map fun x => x - m).foldl min (t - m)) = (ts.foldl min t) - m := by
  induction ts generalizing t with
  | nil => rfl
  | cons a rest ih =>
    simp only [List.map_cons, List.foldl_cons]
    rw [show min (t - m) (a - m) = min t a - m from by omega, ih]

theorem normalize_length (l : List Nat) :
    (normalize_time_list l).length = l.length := by
  cases l with
  | nil => rfl
  | cons t ts => simp [normalize_time_list]

theorem normalize_eq_map (l : List Nat) :
    normalize_time_list l = l.map fun t => t - list_min l := by
  cases l with
  | nil => rfl
  | cons t ts => rfl

theorem normalize_min_zero (l : List Nat) (h : l ≠ []) :
    list_min (normalize_time_list l) = 0 := by
  cases l with
  | nil => exact absurd rfl h
  | cons t ts =>
    show list_min ((t :: ts).map fun x => x - list_min (t :: ts)) = 0
    simp only [List.map_cons, list_min]
    rw [min_sub_foldl]
    exact Nat.sub_self _

/-! ## Lemmas: failure isolation -/

theorem mergeResult_empty (acc : SeriesMap × List TranslationRecord) :
    mergeResult acc ([], []) = acc := by
  unfold mergeResult
  simp

/-! ## Lemmas: hash identifier shape -/

theorem md5Bytes_length (msg : List Nat) : (md5Bytes msg).length = 16 := by
  simp [md5Bytes, wordLEBytes]

theorem flatMap_byteHex_length (l : List Nat) :
    (l.flatMap byteHex).length = 2 * l.length := by
  induction l with
  | nil => rfl
  | cons b rest ih =>
    simp only [List.flatMap_cons, List.length_append, ih, byteHex,
      List.length_cons, List.length_nil, List.length_cons]
    omega

theorem md5HexChars_length (msg : List Nat) : (md5HexChars msg).length = 32 := by
  unfold md5HexChars
  rw [flatMap_byteHex_length, md5Bytes_length]

theorem hexDigit_mem (n : Nat) : hexDigit n ∈ hexChars := by
  unfold hexDigit
  have h2 : n % 16 < hexChars.length := Nat.mod_lt _ (by decide)
  rw [List.getD_eq_getElem _ _ h2]
  exact List.getElem_mem h2

theorem mem_md5HexChars_hex (msg : List Nat) (c : Char)
    (h : c ∈ md5HexChars msg) : c ∈ hexChars := by
  unfold md5HexChars at h
  rw [List.mem_flatMap] at h
  obtain ⟨b, _, hc⟩ := h
  unfold byteHex at hc
  rcases List.mem_cons.mp hc with h2 | h2
  · exact h2 ▸ hexDigit_mem _
  · rcases List.mem_cons.mp h2 with h3 | h3
    · exact h3 ▸ hexDigit_mem _
    · cases h3

/-! ## Lemmas: all-zero rows -/

theorem flatMap_nil_of_forall {α β : Type} (l : List α) (f : α → List β)
    (h : ∀ a ∈ l, f a = []) : l.flatMap f = [] := by
  induction l with
  | nil => rfl
  | cons a rest ih =>
    rw [List.flatMap_cons, h a (List.mem_cons_self _ _),
      ih (fun a' ha' => h a' (List.mem_cons_of_mem _ ha'))]
    rfl

theorem rowTimestamps_eq_nil_of_zero (base : Nat) (row : Row)
    (h : ∀ m, (row.counts m).getD 0 = 0) : rowTimestamps base row = [] := by
  unfold rowTimestamps
  apply flatMap_nil_of_forall
  intro m _
  cases hc : row.counts m with
  | none => rfl
  | some c =>
    have : c = 0 := by simpa [hc] using h m
    simp [this]

theorem mem_keys_foldl_processRow (rows : List Row) (idx : Nat)
    (acc : SeriesMap × List TranslationRecord) (k : String)
    (h : k ∈ ((rows.foldl (processRow idx) acc).1.map Prod.fst)) :
    k ∈ acc.1.map Prod.fst ∨
      ∃ r ∈ rows, rid r = k ∧ rowTimestamps (idx * 24 * 60) r ≠ [] := by
  induction rows generalizing acc with
  | nil => exact Or.inl h
  | cons r rest ih =>
    rw [List.foldl_cons] at h
    rcases ih _ h with hin | ⟨r', hr', hk, hts⟩
    · rw [processRow_fst] at hin
      by_cases hts : rowTimestamps (idx * 24 * 60) r = []
      · rw [if_pos hts] at hin
        exact Or.inl hin
      · rw [if_neg hts] at hin
        rcases mem_keys_dictSet _ _ _ _ hin with h2 | h2
        · exact Or.inl h2
        · exact Or.inr ⟨r, List.mem_cons_self _ _, h2.symm, hts⟩
    · exact Or.inr ⟨r', List.mem_cons_of_mem _ hr', hk, hts⟩

/-! ## Claim theorems -/

set_option maxRecDepth 100000

/-- Claim C3: the identity function (`create_hash_id`) is a pure, total,
deterministic function of the three input strings — repeated calls return
the same value — and for every inputs, empty strings included, the result
is exactly 10 characters long and every character is a lower-case
hexadecimal digit. -/
theorem claim3_identity_deterministic_shape (o a f : String) :
    create_hash_id o a f = create_hash_id o a f ∧
    (create_hash_id o a f).length = 10 ∧
    ∀ c ∈ (create_hash_id o a f).data, c ∈ hexChars := by
  refine ⟨rfl, ?_, ?_⟩
  · show (String.mk ((md5HexChars (strBytes (o ++ "_" ++ a ++ "_" ++ f))).take 10)).length = 10
    simp [String.length, List.length_take, md5HexChars_length]
  · intro c hc
    have hc2 : c ∈ (md5HexChars (strBytes (o ++ "_" ++ a ++ "_" ++ f))).take 10 := hc
    exact mem_md5HexChars_hex _ _ (List.take_subset _ _ hc2)

/-- Witness for C3: the theorem instantiated at a concrete triple; the
member hypothesis is discharged at the first character of the computed
identifier. -/
theorem claim3_witness :
    (create_hash_id "o1" "a1" "f1").length = 10 ∧ '5' ∈ hexChars :=
  ⟨(claim3_identity_deterministic_shape "o1" "a1" "f1").2.1,
   (claim3_identity_deterministic_shape "o1" "a1" "f1").2.2 '5' (by decide)⟩

/-- Claim C10: the identifier and the recorded original key depend only on
the underscore-joined concatenation of the triple, so distinct triples with
equal concatenations are guaranteed to collide. -/
theorem claim10_underscore_ambiguity (o a f o' a' f' t t' : String)
    (cnt cnt' : Nat → Option Nat)
    (h : o ++ "_" ++ a ++ "_" ++ f = o' ++ "_" ++ a' ++ "_" ++ f') :
    create_hash_id o a f = create_hash_id o' a' f' ∧
    (mkTranslation ⟨o, a, f, t, cnt⟩ (create_hash_id o a f)).original_uuid =
      (mkTranslation ⟨o', a', f', t', cnt'⟩ (create_hash_id o' a' f')).original_uuid := by
  constructor
  · unfold create_hash_id
    rw [h]
  · simpa [mkTranslation] using h

/-- Witness for C10: the concrete guaranteed collision between the triples
(a, b_c, d) and (a_b, c, d). -/
theorem claim10_witness :
    create_hash_id "a" "b_c" "d" = create_hash_id "a_b" "c" "d" :=
  (claim10_underscore_ambiguity "a" "b_c" "d" "a_b" "c" "d" "http" "http"
    (fun _ => none) (fun _ => none) (by decide)).1

/-- Claim C4: normalization maps the empty series to the empty series,
preserves length, replaces every timestamp t by t minus the series
minimum (round-to-3 is exact on integer timestamps), and hence gives every
nonempty series minimum exactly 0. -/
theorem claim4_normalization (l : List Nat) :
    normalize_time_list [] = [] ∧
    (normalize_time_list l).length = l.length ∧
    normalize_time_list l = (l.map fun t => t - list_min l) ∧
    (l ≠ [] → list_min (normalize_time_list l) = 0) :=
  ⟨rfl, normalize_length l, normalize_eq_map l, normalize_min_zero l⟩

/-- Witness for C4: the theorem instantiated at the series [5, 7, 6], with
the nonemptiness hypothesis discharged by evaluation. -/
theorem claim4_witness :
    normalize_time_list [5, 7, 6] = [0, 2, 1] ∧
    list_min (normalize_time_list [5, 7, 6]) = 0 :=
  ⟨by decide, (claim4_normalization [5, 7, 6]).2.2.2 (by decide)⟩

/-- Claim C8: in the final invocation table, every row pair in display
order has non-increasing call_count (the table is sorted by call_count
descending; tie order unspecified). -/
theorem claim8_sorted_desc (completed : List (SeriesMap × List TranslationRecord)) :
    List.Pairwise (fun a b : InvocationRow => b.call_count ≤ a.call_count)
      (pipelineRun completed).1 := by
  haveI h1 : IsTotal InvocationRow callCountDesc := ⟨fun a b => Nat.le_total _ _⟩
  haveI h2 : IsTrans InvocationRow callCountDesc :=
    ⟨fun a b c hab hbc => le_trans hbc hab⟩
  exact List.sorted_insertionSort callCountDesc _

/-- Claim C9: the assembled translation table is deduplicated by full-tuple
equality — no two rows are identical, and each distinct record seen
survives as exactly one row. -/
theorem claim9_translation_dedup (records : List TranslationRecord) :
    (translation_df records).Nodup ∧
    ∀ r : TranslationRecord,
      List.count r (translation_df records) = if r ∈ records then 1 else 0 :=
  ⟨List.nodup_dedup records, fun r => List.count_dedup records r⟩

/-- Claim C6: a shard whose decoding fails yields the empty series map and
empty record list instead of an error, and merging that empty result at any
point of the completion order leaves the final tables exactly those of the
remaining shards (the run completes). -/
theorem claim6_failed_shard_isolated (msg : String) (idx : Nat)
    (pre post : List (SeriesMap × List TranslationRecord)) :
    process_file (.failed msg) idx = ([], []) ∧
    pipelineRun (pre ++ process_file (.failed msg) idx :: post) =
      pipelineRun (pre ++ post) := by
  refine ⟨rfl, ?_⟩
  unfold pipelineRun accumulate
  rw [List.foldl_append, List.foldl_append, List.foldl_cons,
    show process_file (.failed msg) idx = ([], []) from rfl, mergeResult_empty]

/-- Claim C5: for one fixed set of shards, folding the per-shard decode
results into the global series map in any two completion orders yields, for
every identity, the same multiset of timestamps. -/
theorem claim5_merge_order_independent (shards : List ShardInput)
    (completed1 completed2 : List (SeriesMap × List TranslationRecord))
    (h1 : completed1.Perm (shardResults shards))
    (h2 : completed2.Perm (shardResults shards)) (k : String) :
    (↑(lookupD (accumulate completed1).1 k) : Multiset Nat) =
      ↑(lookupD (accumulate completed2).1 k) := by
  rw [lookupD_accumulate_multiset, lookupD_accumulate_multiset]
  exact ((h1.map _).sum_eq).trans ((h2.map _).sum_eq).symm

/-- Witness for C5: two concrete shards merged in shard order and in
reverse completion order give the same timestamp multiset for the shared
identity. -/
theorem claim5_witness :
    (↑(lookupD (accumulate (shardResults [ShardInput.ok [rowA], ShardInput.ok [rowB]])).1
        (create_hash_id "o1" "a1" "f1")) : Multiset Nat) =
      ↑(lookupD (accumulate (shardResults [ShardInput.ok [rowA], ShardInput.ok [rowB]]).reverse).1
        (create_hash_id "o1" "a1" "f1")) :=
  claim5_merge_order_independent [ShardInput.ok [rowA], ShardInput.ok [rowB]] _ _
    (List.Perm.refl _) (List.reverse_perm _) _

/-- Claim C1 (amended): provided no two rows within any single shard share
a derived identifier, every row of the final invocation table has
call_count equal to the sum, over all successfully decoded shards and all
rows carrying that row's identifier, of the minute-count values. -/
theorem claim1_conservation (shards : List ShardInput)
    (huniq : ∀ rows, ShardInput.ok rows ∈ shards → (rows.map rid).Nodup) :
    ∀ row ∈ (process_invocation_data shards).1,
      row.call_count = totalCount shards row.uuid := by
  intro row hrow
  have hmem : row ∈ df_invocations (accumulate (shardResults shards)).1 := hrow
  obtain ⟨p, hp, hre⟩ := mem_df_invocations _ _ hmem
  subst hre
  show p.2.length = totalCount shards p.1
  have hl : List.lookup p.1 (accumulate (shardResults shards)).1 = some p.2 :=
    lookup_of_mem_nodupKeys _ _ _ (nodupKeys_accumulate _) hp
  have hlp : lookupD (accumulate (shardResults shards)).1 p.1 = p.2 := by
    simp [lookupD, hl]
  rw [← hlp]
  exact lookupD_global_length shards p.1 huniq

/-- Counterexample to C1 as stated: one shard containing two rows with the
same triple (so the same identifier).  The second row's timestamp list
overwrites the first's inside the shard, so the final call_count is 3
while the total of the minute-count fields over all rows of that triple is
2 + 3 = 5. -/
theorem claim1_counterexample :
    ∃ row ∈ (process_invocation_data [ShardInput.ok [rowDup1, rowDup2]]).1,
      row.call_count ≠ totalCount [ShardInput.ok [rowDup1, rowDup2]] row.uuid := by
  refine ⟨{ uuid := create_hash_id "o2" "a2" "f2", time := [0, 0, 0], call_count := 3 },
    ?_, ?_⟩
  · decide
  · decide

/-- Witness for C1: the spec's Scenario A — the same function in shards 0
and 1 with 2 + 1 invocations — where the amended conservation statement is
instantiated concretely. -/
theorem claim1_witness :
    ({ uuid := create_hash_id "o1" "a1" "f1", time := [0, 0, 1440],
        call_count := 3 } : InvocationRow).call_count =
      totalCount [ShardInput.ok [rowA], ShardInput.ok [rowB]]
        ({ uuid := create_hash_id "o1" "a1" "f1", time := [0, 0, 1440],
            call_count := 3 } : InvocationRow).uuid := by
  refine claim1_conservation [ShardInput.ok [rowA], ShardInput.ok [rowB]] ?_ _ ?_
  · intro rows h
    rcases List.mem_cons.mp h with h1 | h1
    · cases h1
      simp [List.nodup_cons]
    · rcases List.mem_cons.mp h1 with h2 | h2
      · cases h2
        simp [List.nodup_cons]
      · cases h2
  · decide

/-- Claim C2 (amended): provided no two rows of the shard share a derived
identifier, a row minute field at 1-based minute m with value c > 0
contributes exactly c copies of timestamp i * 1440 + m to that row's
identity's series for shard i, and every timestamp of that series lies in
the shard's window [i * 1440 + 1, i * 1440 + 1440]. -/
theorem claim2_expansion (i : Nat) (rows : List Row) (r : Row) (m c : Nat)
    (huniq : (rows.map rid).Nodup) (hr : r ∈ rows)
    (hm1 : 1 ≤ m) (hm2 : m ≤ 1440) (hc : r.counts m = some c) (hpos : 0 < c) :
    (lookupD (process_file (.ok rows) i).1 (rid r)).count (i * 1440 + m) = c ∧
    ∀ t ∈ lookupD (process_file (.ok rows) i).1 (rid r),
      i * 1440 + 1 ≤ t ∧ t ≤ i * 1440 + 1440 := by
  have hfilter := filter_rid_eq_single rows r huniq hr
  have hlook := process_file_lookupD rows i (rid r) (by rw [hfilter]; simp)
  rw [hfilter] at hlook
  simp only [List.flatMap_cons, List.flatMap_nil, List.append_nil] at hlook
  have hbase : i * 24 * 60 = i * 1440 := by omega
  constructor
  · rw [hlook, hbase]
    exact count_rowTimestamps _ _ _ _ ((mem_minutesList m).mpr ⟨hm1, hm2⟩) hc hpos
  · intro t ht
    rw [hlook, hbase] at ht
    obtain ⟨m', hm', rfl⟩ := mem_rowTimestamps _ _ _ ht
    have := (mem_minutesList m').mp hm'
    omega

/-- Counterexample to C2 as stated: two rows of one shard share a triple,
so the second row's timestamps replace the first's.  The first row's
minute-1 field has value 2 > 0, yet its identity's series for the shard
holds 0 copies of timestamp 0 * 1440 + 1. -/
theorem claim2_counterexample :
    rowDup1.counts 1 = some 2 ∧
    (lookupD (process_file (.ok [rowDup1, rowDup2]) 0).1 (rid rowDup1)).count
      (0 * 1440 + 1) = 0 := by
  constructor
  · rfl
  · decide

/-- Witness for C2: the amended statement instantiated at a one-row shard
with index 0 and minute 1 carrying 2 invocations. -/
theorem claim2_witness :
    (lookupD (process_file (.ok [rowA]) 0).1 (rid rowA)).count (0 * 1440 + 1) = 2 :=
  (claim2_expansion 0 [rowA] rowA 1 2 (by simp) (List.mem_singleton.mpr rfl)
    (by decide) (by decide) rfl (by decide)).1

/-- Claim C7: decoding emits exactly one translation record per row,
unconditionally; and for a row all of whose minute counts are zero — with
no shard contributing any invocations for its identity — the record is
present but the identity has no entry in the shard's series map and no row
in the final invocation table. -/
theorem claim7_zero_rows (idx : Nat) (rows : List Row) :
    (process_file (.ok rows) idx).2 = rows.map (fun r => mkTranslation r (rid r)) ∧
    ∀ (shards : List ShardInput) (r : Row), r ∈ rows →
      ShardInput.ok rows ∈ shards →
      (∀ rows', ShardInput.ok rows' ∈ shards →
        ∀ r' ∈ rows', rid r' = rid r → ∀ m, (r'.counts m).getD 0 = 0) →
      mkTranslation r (rid r) ∈ (process_file (.ok rows) idx).2 ∧
      rid r ∉ (process_file (.ok rows) idx).1.map Prod.fst ∧
      ∀ irow ∈ (process_invocation_data shards).1, irow.uuid ≠ rid r := by
  refine ⟨process_file_translations rows idx, ?_⟩
  intro shards r hr hsh hzero
  refine ⟨?_, ?_, ?_⟩
  · rw [process_file_translations]
    exact List.mem_map_of_mem _ hr
  · show rid r ∉ ((rows.foldl (processRow idx) ([], [])).1.map Prod.fst)
    refine keys_foldl_processRow_zero rows idx ([], []) (rid r) (by simp) ?_
    intro r' hr' heq
    exact rowTimestamps_eq_nil_of_zero _ _ (hzero rows hsh r' hr' heq)
  · intro irow hirow heq
    obtain ⟨p, hp, hre⟩ := mem_df_invocations _ _ hirow
    have hkey : irow.uuid ∈ (accumulate (shardResults shards)).1.map Prod.fst := by
      subst hre
      exact List.mem_map_of_mem Prod.fst hp
    rw [heq] at hkey
    unfold accumulate at hkey
    rw [accumulate_fst, ← List.foldl_flatten] at hkey
    rcases mem_keys_foldl_mergeSeries _ _ _ hkey with h0 | ⟨e, he, hek⟩
    · simp at h0
    · rw [List.mem_flatten] at he
      obtain ⟨part, hpart, hepart⟩ := he
      obtain ⟨res, hres, rfl⟩ := List.mem_map.mp hpart
      obtain ⟨q, hq, rfl⟩ := List.mem_map.mp hres
      obtain ⟨i, s⟩ := q
      cases hs : s with
      | failed msg =>
        rw [hs] at hepart
        cases hepart
      | ok rows' =>
        rw [hs] at hepart
        have hkey2 : rid r ∈ ((rows'.foldl (processRow i) ([], [])).1.map Prod.fst) := by
          rw [← hek]
          exact List.mem_map_of_mem Prod.fst hepart
        rcases mem_keys_foldl_processRow rows' i ([], []) (rid r) hkey2 with h3 | ⟨r', hr', hk', hts'⟩
        · simp at h3
        · have hmem : ShardInput.ok rows' ∈ shards := by
            have := snd_mem_of_mem_enumFrom shards 0 i s hq
            rw [hs] at this
            exact this
          exact hts' (rowTimestamps_eq_nil_of_zero _ _ (hzero rows' hmem r' hr' hk'))

/-- Witness for C7: a single shard with one all-zero row; the record is
emitted, the series map has no entry and the final table no row for its
identity. -/
theorem claim7_witness :
    mkTranslation rowZero (rid rowZero) ∈ (process_file (.ok [rowZero]) 0).2 ∧
    rid rowZero ∉ (process_file (.ok [rowZero]) 0).1.map Prod.fst := by
  have h := (claim7_zero_rows 0 [rowZero]).2 [ShardInput.ok [rowZero]] rowZero
    (List.mem_singleton.mpr rfl) (List.mem_singleton.mpr rfl) ?_
  · exact ⟨h.1, h.2.1⟩
  · intro rows' hmem r' hr' _ m
    have h1 : ShardInput.ok rows' = ShardInput.ok [rowZero] := List.mem_singleton.mp hmem
    cases h1
    have h2 : r' = rowZero := List.mem_singleton.mp hr'
    cases h2
    rfl

end Azure2019
